/-
Verification of the persistent queue (python-persistent-queue).

The development shallowly embeds the two drafts of the queue found in the
repository:
  * `persistent_queue/persistent_queue.py` (the stdlib-compatible draft:
    `put` / `get` / `peek` / `delete` / `flush` / `task_done` / `join`);
  * `persistent_queue/__init__.py` (the older draft; only its
    `delete(items)` is needed here, embedded as `PQ.deleteN`).

The backing file is a byte list together with a cursor (`QFile`), matching
a Python file object opened with `buffering=0`.  Machine integers are
`Nat`; the 4-byte little-endian header fields written with
`struct.pack('I', n)` are modelled by `le32`, faithful for `n < 2^32`
(for larger `n` Python's `struct.pack` raises, a case none of the claims
reach: all states considered carry the bound `file size < 2^32`).

Blocking waits on `threading.Event` cannot be modelled single-threadedly;
in this embedding the failure path of a non-blocking or timed-out call is
taken directly (in the source both paths `raise` without touching the
file, the cached count or the unfinished-task counter, which is all the
claims speak about).
-/
import Mathlib

/-- `struct.pack('I', n)`: 4 little-endian bytes (faithful for `n < 2^32`,
where Python would not raise `struct.error`). -/
def le32 (n : Nat) : List Nat :=
  [n % 256, n / 256 % 256, n / 65536 % 256, n / 16777216 % 256]

/-- `struct.unpack('I', bs[:4])[0]`.  In the source a short read makes
`struct.unpack` raise; the claims only evaluate it on reads of exactly
4 bytes, where this total version agrees. -/
def readLe32 (bs : List Nat) : Nat :=
  match bs with
  | a :: b :: c :: d :: _ => a + 256 * b + 65536 * c + 16777216 * d
  | _ => 0

/-- A Python file object opened with `buffering=0`: raw contents plus the
file cursor. -/
structure QFile where
  data : List Nat
  pos : Nat
deriving Repr, DecidableEq

/-- `file.seek(p, 0)`. -/
def QFile.seek (f : QFile) (p : Nat) : QFile := { f with pos := p }

/-- `file.tell()`. -/
def QFile.tell (f : QFile) : Nat := f.pos

/-- `file.read(n)`: returns up to `n` bytes from the cursor (clamped at
end of file, as Python does) and advances the cursor by the number of
bytes actually read. -/
def QFile.read (f : QFile) (n : Nat) : List Nat × QFile :=
  let bs := (f.data.drop f.pos).take n
  (bs, { f with pos := f.pos + bs.length })

/-- `file.write(bs)`: overwrites in place from the cursor, extending the
file as needed (a cursor past end of file pads with zero bytes, as on a
POSIX file). -/
def QFile.write (f : QFile) (bs : List Nat) : QFile :=
  { data := f.data.take f.pos ++ List.replicate (f.pos - f.data.length) 0 ++
      bs ++ f.data.drop (f.pos + bs.length),
    pos := f.pos + bs.length }

/-- In-memory state of a `PersistentQueue`: the backing file plus the
cached count `_length`, `maxsize`, `flush_limit` and the unfinished-task
counter.  (Locks and `threading.Event`s have no single-threaded content
and are not part of the state.) -/
structure PQ where
  file : QFile
  length : Nat
  maxsize : Nat
  flushLimit : Nat
  unfinished : Int
deriving Repr, DecidableEq

/-- Errors the queue raises: `queue.Empty`, `queue.Full`, and the
`ValueError` from `task_done`. -/
inductive QErr where
  | empty
  | full
  | taskDoneTooMany
deriving Repr, DecidableEq

/-- `PersistentQueue._update_length(length)`: save the cursor, write the
count into bytes 0..4, update the cache, restore the cursor. -/
def PQ.updateLength (s : PQ) (len : Nat) : PQ :=
  let p := s.file.tell
  let f1 := (s.file.seek 0).write (le32 len)
  { s with file := f1.seek p, length := len }

/-- `PersistentQueue._get_queue_top()`: save the cursor, read bytes 4..8,
restore the cursor, return the head offset. -/
def PQ.getQueueTop (f : QFile) : Nat × QFile :=
  let p := f.tell
  let (bs, f1) := (f.seek 4).read 4
  (readLe32 bs, f1.seek p)

/-- `PersistentQueue._set_queue_top(top)`: save the cursor, write the head
offset into bytes 4..8, restore the cursor. -/
def PQ.setQueueTop (f : QFile) (top : Nat) : QFile :=
  let p := f.tell
  (((f.seek 4).write (le32 top)).seek p)

/-- A fresh queue as built by `__init__` on a new file: header `(0, 8)`
written, then the count re-read (leaving the cursor at 4). -/
def freshPQ (maxsize flushLimit : Nat) : PQ :=
  { file := { data := le32 0 ++ le32 8, pos := 4 },
    length := 0, maxsize := maxsize, flushLimit := flushLimit,
    unfinished := 0 }

/-- `PersistentQueue._peek` (final draft).  The failure branch covers the
non-blocking call and the timed-out blocking call (in the source both
`raise queue.Empty` after touching only a `threading.Event`).  On success
it returns the decoded first record and `file.tell()` after it, exactly
as `_peek` returns `item, queue_top`. -/
def PQ.peekAux {α : Type} (loads : List Nat → α) (s : PQ) :
    Except QErr (α × Nat) × PQ :=
  if s.length < 1 then (.error .empty, s)
  else
    let (top, f0) := PQ.getQueueTop s.file
    let f1 := f0.seek top
    let (lb, f2) := f1.read 4
    let len := readLe32 lb
    let (d, f3) := f2.read len
    let item := loads d
    (.ok (item, f3.tell), { s with file := f3 })

/-- `PersistentQueue.put` (final draft).  The failure branch covers the
non-blocking call and the timed-out blocking call on a saturated bounded
queue.  On success: append the framed record at end of file, update the
header count, bump the unfinished-task counter. -/
def PQ.put {α : Type} (dumps : α → List Nat) (item : α) (s : PQ) :
    Except QErr Unit × PQ :=
  if s.maxsize > 0 ∧ s.length + 1 > s.maxsize then (.error .full, s)
  else
    let d := dumps item
    let f1 := s.file.seek s.file.data.length
    let f2 := (f1.write (le32 d.length)).write d
    let s1 := PQ.updateLength { s with file := f2 } (s.length + 1)
    (.ok (), { s1 with unfinished := s1.unfinished + 1 })

/-- `PersistentQueue.get` (final draft): `_peek`, then store the returned
`queue_top` as the new head offset and decrement the count. -/
def PQ.get {α : Type} (loads : List Nat → α) (s : PQ) : Except QErr α × PQ :=
  match PQ.peekAux loads s with
  | (.error e, s1) => (.error e, s1)
  | (.ok (item, queueTop), s1) =>
    let s2 := { s1 with file := PQ.setQueueTop s1.file queueTop }
    let s3 := PQ.updateLength s2 (s2.length - 1)
    (.ok item, s3)

/-- `PersistentQueue.peek` (final draft): `_peek` and drop `queue_top`. -/
def PQ.peek {α : Type} (loads : List Nat → α) (s : PQ) : Except QErr α × PQ :=
  match PQ.peekAux loads s with
  | (.error e, s1) => (.error e, s1)
  | (.ok (item, _), s1) => (.ok item, s1)

/-- `PersistentQueue.delete` of the final draft (argumentless): skip one
record without decoding it; no-op on an empty queue. -/
def PQ.delete (s : PQ) : PQ :=
  if s.length < 1 then s
  else
    let (top, f0) := PQ.getQueueTop s.file
    let f1 := f0.seek top
    let (lb, f2) := f1.read 4
    let len := readLe32 lb
    let f3 := f2.seek (f2.tell + len)
    let f4 := PQ.setQueueTop f3 f3.tell
    PQ.updateLength { s with file := f4 } (s.length - 1)

/-- The `read_length` skip loop of `delete(items)` in the older draft:
`total_items` times, read a 4-byte length and seek past the payload. -/
def skipRecords (f : QFile) : Nat → QFile
  | 0 => f
  | n + 1 =>
    let (lb, f1) := f.read 4
    let len := readLe32 lb
    skipRecords (f1.seek (f1.tell + len)) n

/-- `PersistentQueue.delete(items)` of the older draft
(`persistent_queue/__init__.py`): clamp `items` to the count, skip that
many records without decoding, store the new head offset and count.
`items == 0` returns immediately. -/
def PQ.deleteN (items : Nat) (s : PQ) : PQ :=
  if items = 0 then s
  else
    let (top, f0) := PQ.getQueueTop s.file
    let f1 := f0.seek top
    let totalItems := if items > s.length then s.length else items
    let f2 := skipRecords f1 totalItems
    let f3 := PQ.setQueueTop f2 f2.tell
    PQ.updateLength { s with file := f3 } (s.length - totalItems)

/-- `PersistentQueue.task_done`: decrement the unfinished-task counter;
raise `ValueError` (leaving it untouched) if it would become negative. -/
def PQ.taskDone (s : PQ) : Except QErr Unit × PQ :=
  let unfinished := s.unfinished - 1
  if unfinished < 0 then (.error .taskDoneTooMany, s)
  else (.ok (), { s with unfinished := unfinished })

/-- `PersistentQueue.join` returns (stops waiting on `_all_tasks_done`)
exactly when the unfinished-task counter is zero. -/
def PQ.canJoin (s : PQ) : Prop := s.unfinished = 0

instance (s : PQ) : Decidable (PQ.canJoin s) := by
  unfold PQ.canJoin; infer_instance

/-- `put` iterated over a list, stopping at the first failure. -/
def putAll {α : Type} (dumps : α → List Nat) : List α → PQ →
    Except QErr Unit × PQ
  | [], s => (.ok (), s)
  | v :: vs, s =>
    match PQ.put dumps v s with
    | (.error e, s1) => (.error e, s1)
    | (.ok (), s1) => putAll dumps vs s1

/-- `get` iterated `n` times, collecting the results, stopping at the
first failure. -/
def getN {α : Type} (loads : List Nat → α) : Nat → PQ →
    Except QErr (List α) × PQ
  | 0, s => (.ok [], s)
  | n + 1, s =>
    match PQ.get loads s with
    | (.error e, s1) => (.error e, s1)
    | (.ok v, s1) =>
      match getN loads n s1 with
      | (.error e, s2) => (.error e, s2)
      | (.ok vs, s2) => (.ok (v :: vs), s2)

/-- `task_done` iterated `n` times, stopping at the first failure. -/
def taskDoneN : Nat → PQ → Except QErr Unit × PQ
  | 0, s => (.ok (), s)
  | n + 1, s =>
    match PQ.taskDone s with
    | (.error e, s1) => (.error e, s1)
    | (.ok (), s1) => taskDoneN n s1

/-- The framed on-disk form of one payload: 4-byte length then bytes. -/
def recBytes (r : List Nat) : List Nat := le32 r.length ++ r

/-- Concatenation of framed records. -/
def joinRecs (recs : List (List Nat)) : List Nat :=
  (recs.map recBytes).flatten

/-- File contents of a queue whose dead region holds `dead` and whose
live region holds the framed `recs`: header `(count, head_offset)` with
`count = recs.length` and `head_offset = 8 + dead.length`. -/
def mkData (dead : List Nat) (recs : List (List Nat)) : List Nat :=
  le32 recs.length ++ le32 (8 + dead.length) ++ dead ++ joinRecs recs

/-- The queue state `s` holds dead bytes `dead` and pending framed
payloads `recs` (spec §3 invariants 1–4), with everything addressable by
the 32-bit header fields. -/
def QRepr (s : PQ) (dead : List Nat) (recs : List (List Nat)) : Prop :=
  s.file.data = mkData dead recs ∧ s.length = recs.length ∧
    8 + dead.length + (joinRecs recs).length < 4294967296

/-- Filesystem-visible steps of `flush`, in program order: writes to the
temporary sibling file, `os.remove(self.filename)`, and
`os.rename(temp_filename, self.filename)`. -/
inductive FsOp where
  | writeTempHeader
  | writeTempChunk (n : Nat)
  | removeOriginal
  | renameTempToOriginal
deriving Repr, DecidableEq

/-- Fuelled body of the chunked copy loop of `flush`; the fuel only
bounds the iteration count (each iteration adds 4096 to `bytesRead`, so
`total - bytesRead` iterations always suffice; `copyLoop_unfold` below
certifies that with that fuel the function satisfies exactly the loop's
recurrence). -/
def copyLoopF : Nat → QFile → Nat → Nat → QFile × List Nat × List Nat
  | 0, f, _, _ => (f, [], [])
  | fuel + 1, f, bytesRead, total =>
    if bytesRead < total then
      let rd := f.read (bytesRead + 4096)
      let r := copyLoopF fuel rd.2 (bytesRead + 4096) total
      (r.1, rd.1 ++ r.2.1, rd.1.length :: r.2.2)
    else (f, [], [])

/-- The chunked copy loop of `flush` (final draft), verbatim:
`while bytes_read < end - start: bytes_read += chunk_size;
new_file.write(self._file.read(bytes_read))`.  Returns the source file
after the reads, the bytes written to the temp file, and the size of
each chunk actually read. -/
def copyLoop (f : QFile) (bytesRead total : Nat) : QFile × List Nat × List Nat :=
  copyLoopF (total - bytesRead) f bytesRead total

/-- `PersistentQueue.flush` (final draft).  A no-op (empty event trace)
when `head_offset < flush_limit`; otherwise writes header and live bytes
to a temp file, then removes the original and renames the temp file over
it, reopening the result (cursor 0, cached count kept). -/
def PQ.flush (s : PQ) : PQ × List FsOp :=
  let pos := (PQ.getQueueTop s.file).1
  if pos < s.flushLimit then (s, [])
  else
    let start := (PQ.getQueueTop s.file).1
    let fe := s.file.seek s.file.data.length
    let endPos := fe.tell
    let f1 := fe.seek start
    let r := copyLoop f1 0 (endPos - start)
    let newData := le32 s.length ++ le32 8 ++ r.2.1
    ({ s with file := { data := newData, pos := 0 } },
      .writeTempHeader :: r.2.2.map FsOp.writeTempChunk ++
        [.removeOriginal, .renameTempToOriginal])

/-- The chunk sizes `copyLoop` reads, as a function of the bytes
available past the cursor only. -/
def chunkTrace (avail bytesRead total : Nat) : List Nat :=
  if bytesRead < total then
    let r := min (bytesRead + 4096) avail
    r :: chunkTrace (avail - r) (bytesRead + 4096) total
  else []
  termination_by total - bytesRead
  decreasing_by omega

/-- Modelled from the spec: the copy loop §4.4 prescribes — "read chunk
of size `min(4096, remaining)`; write it; decrement remaining" — giving
the sizes of the chunks it reads. -/
def specChunks (remaining : Nat) : List Nat :=
  if remaining = 0 then []
  else min 4096 remaining :: specChunks (remaining - min 4096 remaining)
  termination_by remaining
  decreasing_by omega

/-- `count` as stored in bytes 0..4 of the file. -/
def headerCount (bs : List Nat) : Nat := readLe32 (bs.take 4)

/-- `head_offset` as stored in bytes 4..8 of the file. -/
def headTop (bs : List Nat) : Nat := readLe32 ((bs.drop 4).take 4)

/-- Walk `k` length-prefixed records starting at `off`; `some` of the
final offset when every record fits inside the file. -/
def walk (bs : List Nat) (off : Nat) : Nat → Option Nat
  | 0 => some off
  | k + 1 =>
    if off + 4 ≤ bs.length then
      let len := readLe32 ((bs.drop off).take 4)
      if off + 4 + len ≤ bs.length then walk bs (off + 4 + len) k
      else none
    else none

/- ### Byte-level and file-level lemmas -/

theorem le32_length (n : Nat) : (le32 n).length = 4 := rfl

theorem readLe32_le32_append (n : Nat) (rest : List Nat)
    (h : n < 4294967296) : readLe32 (le32 n ++ rest) = n := by
  simp only [le32, readLe32, List.cons_append, List.nil_append]
  omega

theorem readLe32_le32 (n : Nat) (h : n < 4294967296) :
    readLe32 (le32 n) = n := by
  simpa using readLe32_le32_append n [] h

theorem read_at (A B : List Nat) (n : Nat) :
    QFile.read ⟨A ++ B, A.length⟩ n =
      (B.take n, ⟨A ++ B, A.length + (B.take n).length⟩) := by
  simp [QFile.read, List.drop_left]

theorem write_between (A B C bs : List Nat) (h : bs.length = B.length) :
    QFile.write ⟨A ++ B ++ C, A.length⟩ bs =
      ⟨A ++ bs ++ C, A.length + bs.length⟩ := by
  simp only [QFile.write, List.append_assoc]
  refine congrArg₂ QFile.mk ?_ rfl
  rw [List.take_left, List.length_append, List.length_append]
  have h2 : ((A ++ (B ++ C)).drop (A.length + bs.length)) = C := by
    rw [h, show A.length + B.length = (A ++ B).length by simp,
      ← List.append_assoc]
    exact List.drop_left' rfl
  rw [h2]
  simp

theorem write_append (A bs : List Nat) :
    QFile.write ⟨A, A.length⟩ bs = ⟨A ++ bs, A.length + bs.length⟩ := by
  simp [QFile.write, List.drop_eq_nil_of_le]

theorem take4_le32 (n : Nat) (rest : List Nat) :
    (le32 n ++ rest).take 4 = le32 n := List.take_left' (le32_length n)

theorem drop4_le32 (n : Nat) (rest : List Nat) :
    (le32 n ++ rest).drop 4 = rest := List.drop_left' (le32_length n)

theorem joinRecs_nil : joinRecs [] = [] := rfl

theorem joinRecs_cons (r : List Nat) (rest : List (List Nat)) :
    joinRecs (r :: rest) = recBytes r ++ joinRecs rest := by
  simp [joinRecs]

theorem joinRecs_append (xs ys : List (List Nat)) :
    joinRecs (xs ++ ys) = joinRecs xs ++ joinRecs ys := by
  simp [joinRecs]

theorem recBytes_length (r : List Nat) :
    (recBytes r).length = 4 + r.length := by
  simp only [recBytes, le32, List.length_append, List.length_cons,
    List.length_nil]

theorem mkData_length (dead : List Nat) (recs : List (List Nat)) :
    (mkData dead recs).length = 8 + dead.length + (joinRecs recs).length := by
  simp only [mkData, le32, List.length_append, List.length_cons,
    List.length_nil]

/- ### Header accesses on canonical file contents -/

theorem getQueueTop_eq (a b : Nat) (rest : List Nat) (p : Nat)
    (hb : b < 4294967296) :
    PQ.getQueueTop ⟨le32 a ++ (le32 b ++ rest), p⟩ =
      (b, ⟨le32 a ++ (le32 b ++ rest), p⟩) := by
  simp only [PQ.getQueueTop, QFile.seek, QFile.tell, QFile.read,
    drop4_le32, take4_le32]
  rw [readLe32_le32 b hb]

theorem setQueueTop_eq (a b t : Nat) (rest : List Nat) (p : Nat) :
    PQ.setQueueTop ⟨le32 a ++ (le32 b ++ rest), p⟩ t =
      ⟨le32 a ++ (le32 t ++ rest), p⟩ := by
  simp only [PQ.setQueueTop, QFile.seek, QFile.tell]
  have h4 : (4 : Nat) = (le32 a).length := rfl
  rw [show (le32 a ++ (le32 b ++ rest) : List Nat) =
        le32 a ++ le32 b ++ rest by simp]
  rw [show (QFile.mk (le32 a ++ le32 b ++ rest) 4 : QFile) =
        ⟨le32 a ++ le32 b ++ rest, (le32 a).length⟩ by rfl]
  rw [write_between (le32 a) (le32 b) rest (le32 t) rfl]
  simp [QFile.seek]

theorem updateLength_eq (s : PQ) (a : Nat) (rest : List Nat) (len : Nat)
    (hf : s.file.data = le32 a ++ rest) :
    PQ.updateLength s len =
      { s with file := ⟨le32 len ++ rest, s.file.pos⟩, length := len } := by
  simp only [PQ.updateLength, QFile.seek, QFile.tell, hf]
  rw [show (QFile.mk (le32 a ++ rest) 0 : QFile) =
        ⟨[] ++ le32 a ++ rest, ([] : List Nat).length⟩ by rfl]
  rw [write_between [] (le32 a) rest (le32 len) rfl]
  rfl

/- ### Canonical queue states and the effect of each operation -/

/-- The queue state with dead bytes `dead`, pending framed payloads
`recs`, cursor `p`, and the given parameters/counter. -/
def mkPQ (dead : List Nat) (recs : List (List Nat)) (p m fl : Nat)
    (u : Int) : PQ :=
  { file := ⟨mkData dead recs, p⟩, length := recs.length,
    maxsize := m, flushLimit := fl, unfinished := u }

theorem mkData_assoc (dead : List Nat) (recs : List (List Nat)) :
    mkData dead recs =
      le32 recs.length ++
        (le32 (8 + dead.length) ++ (dead ++ joinRecs recs)) := by
  simp [mkData]

theorem put_ok {α : Type} (dumps : α → List Nat) (v : α)
    (dead : List Nat) (recs : List (List Nat)) (p m fl : Nat) (u : Int)
    (hcap : ¬(m > 0 ∧ recs.length + 1 > m)) :
    PQ.put dumps v (mkPQ dead recs p m fl u) =
      (.ok (), mkPQ dead (recs ++ [dumps v])
        ((mkData dead recs).length + 4 + (dumps v).length) m fl (u + 1)) := by
  have hD : ∀ x : List Nat,
      mkData dead recs ++ x = le32 recs.length ++
        (le32 (8 + dead.length) ++ (dead ++ (joinRecs recs ++ x))) := by
    intro x; simp [mkData]
  simp only [PQ.put, mkPQ]
  rw [if_neg hcap]
  simp only [QFile.seek]
  rw [show (QFile.mk (mkData dead recs) (mkData dead recs).length : QFile) =
        ⟨mkData dead recs, (mkData dead recs).length⟩ by rfl,
    write_append]
  rw [show ((mkData dead recs).length + (le32 (dumps v).length).length : Nat) =
        (mkData dead recs ++ le32 (dumps v).length).length by simp,
    write_append]
  rw [updateLength_eq _ recs.length
      (le32 (8 + dead.length) ++ (dead ++ (joinRecs recs ++
        (le32 (dumps v).length ++ dumps v))))
      (recs.length + 1)
      (by simp only [List.append_assoc] at hD ⊢; exact hD _)]
  simp only [mkPQ, mkData_assoc, joinRecs_append, joinRecs_cons,
    joinRecs_nil, recBytes, List.length_append, List.length_cons,
    List.length_nil, le32_length, List.append_nil, List.append_assoc]
  rfl

theorem peekAux_ok {α : Type} (loads : List Nat → α) (dead r : List Nat)
    (rest : List (List Nat)) (p m fl : Nat) (u : Int)
    (hh : 8 + dead.length < 4294967296) (hr : r.length < 4294967296) :
    PQ.peekAux loads (mkPQ dead (r :: rest) p m fl u) =
      (.ok (loads r, 8 + dead.length + 4 + r.length),
        mkPQ dead (r :: rest) (8 + dead.length + 4 + r.length) m fl u) := by
  have hA : (le32 (rest.length + 1) ++ le32 (8 + dead.length) ++
      dead).length = 8 + dead.length := by
    simp only [List.length_append, le32_length]
  have hA2 : (le32 (rest.length + 1) ++ le32 (8 + dead.length) ++ dead ++
      le32 r.length).length = 8 + dead.length + 4 := by
    simp only [List.length_append, le32_length]
  simp only [PQ.peekAux, mkPQ]
  rw [if_neg (by simp)]
  rw [mkData_assoc]
  rw [getQueueTop_eq _ _ _ _ hh]
  simp only [QFile.seek]
  rw [show (QFile.mk (le32 (r :: rest).length ++
        (le32 (8 + dead.length) ++ (dead ++ joinRecs (r :: rest))))
        (8 + dead.length) : QFile) =
      ⟨(le32 (rest.length + 1) ++ le32 (8 + dead.length) ++ dead) ++
        (le32 r.length ++ (r ++ joinRecs rest)),
        (le32 (rest.length + 1) ++ le32 (8 + dead.length) ++
          dead).length⟩ by
    simp only [QFile.mk.injEq]
    exact ⟨by simp [joinRecs_cons, recBytes, List.append_assoc], hA.symm⟩]
  rw [read_at]
  simp only [take4_le32, le32_length]
  rw [readLe32_le32 _ hr]
  rw [show (QFile.mk ((le32 (rest.length + 1) ++ le32 (8 + dead.length) ++
        dead) ++ (le32 r.length ++ (r ++ joinRecs rest)))
        ((le32 (rest.length + 1) ++ le32 (8 + dead.length) ++
          dead).length + 4) : QFile) =
      ⟨(le32 (rest.length + 1) ++ le32 (8 + dead.length) ++ dead ++
        le32 r.length) ++ (r ++ joinRecs rest),
        (le32 (rest.length + 1) ++ le32 (8 + dead.length) ++ dead ++
          le32 r.length).length⟩ by
    simp only [QFile.mk.injEq]
    exact ⟨by simp [List.append_assoc], by rw [hA, hA2]⟩]
  rw [read_at]
  rw [List.take_left' rfl]
  simp only [QFile.tell, hA2]
  simp [mkPQ, mkData_assoc, joinRecs_cons, recBytes, List.append_assoc]

theorem peek_ok {α : Type} (loads : List Nat → α) (dead r : List Nat)
    (rest : List (List Nat)) (p m fl : Nat) (u : Int)
    (hh : 8 + dead.length < 4294967296) (hr : r.length < 4294967296) :
    PQ.peek loads (mkPQ dead (r :: rest) p m fl u) =
      (.ok (loads r),
        mkPQ dead (r :: rest) (8 + dead.length + 4 + r.length) m fl u) := by
  simp only [PQ.peek]
  rw [peekAux_ok loads dead r rest p m fl u hh hr]

theorem get_ok {α : Type} (loads : List Nat → α) (dead r : List Nat)
    (rest : List (List Nat)) (p m fl : Nat) (u : Int)
    (hh : 8 + dead.length < 4294967296) (hr : r.length < 4294967296) :
    PQ.get loads (mkPQ dead (r :: rest) p m fl u) =
      (.ok (loads r),
        mkPQ (dead ++ recBytes r) rest (8 + dead.length + 4 + r.length)
          m fl u) := by
  simp only [PQ.get]
  rw [peekAux_ok loads dead r rest p m fl u hh hr]
  simp only [mkPQ, mkData_assoc]
  rw [setQueueTop_eq]
  rw [updateLength_eq _ (rest.length + 1)
      (le32 (8 + dead.length + 4 + r.length) ++ (dead ++ joinRecs (r :: rest)))
      ((r :: rest).length - 1) (by simp)]
  have harith : 8 + (dead ++ recBytes r).length =
      8 + dead.length + 4 + r.length := by
    simp only [List.length_append, recBytes_length]; omega
  simp only [List.length_cons, Nat.succ_sub_one, mkData_assoc, harith,
    joinRecs_cons, List.append_assoc]

theorem peekAux_empty {α : Type} (loads : List Nat → α) (s : PQ)
    (h : s.length = 0) : PQ.peekAux loads s = (.error .empty, s) := by
  simp [PQ.peekAux, h]

theorem peek_empty {α : Type} (loads : List Nat → α) (s : PQ)
    (h : s.length = 0) : PQ.peek loads s = (.error .empty, s) := by
  simp only [PQ.peek]
  rw [peekAux_empty loads s h]

theorem get_empty {α : Type} (loads : List Nat → α) (s : PQ)
    (h : s.length = 0) : PQ.get loads s = (.error .empty, s) := by
  simp only [PQ.get]
  rw [peekAux_empty loads s h]

theorem put_full {α : Type} (dumps : α → List Nat) (v : α) (s : PQ)
    (h1 : s.maxsize > 0) (h2 : s.length + 1 > s.maxsize) :
    PQ.put dumps v s = (.error .full, s) := by
  simp only [PQ.put]
  rw [if_pos ⟨h1, h2⟩]

/- ### Relating `QRepr` to canonical states -/

theorem QRepr_mkPQ (dead : List Nat) (recs : List (List Nat))
    (p m fl : Nat) (u : Int)
    (h : 8 + dead.length + (joinRecs recs).length < 4294967296) :
    QRepr (mkPQ dead recs p m fl u) dead recs :=
  ⟨rfl, rfl, h⟩

theorem QRepr_eq_mkPQ (s : PQ) (dead : List Nat) (recs : List (List Nat))
    (h : QRepr s dead recs) :
    s = mkPQ dead recs s.file.pos s.maxsize s.flushLimit s.unfinished := by
  obtain ⟨h1, h2, _⟩ := h
  cases s with
  | mk file len m fl u =>
    cases file with
    | mk d p => simp_all [mkPQ]

theorem joinRecs_length_ge (recs : List (List Nat)) :
    4 * recs.length ≤ (joinRecs recs).length := by
  induction recs with
  | nil => simp [joinRecs]
  | cons r rest ih =>
    simp only [joinRecs_cons, List.length_append, recBytes_length,
      List.length_cons]
    omega

theorem joinRecs_cons_length (r : List Nat) (rest : List (List Nat)) :
    (joinRecs (r :: rest)).length = 4 + r.length + (joinRecs rest).length := by
  simp [joinRecs_cons, recBytes_length]

/- ### The record walk on canonical contents -/

theorem headerCount_mkData (dead : List Nat) (recs : List (List Nat))
    (h : recs.length < 4294967296) :
    headerCount (mkData dead recs) = recs.length := by
  rw [headerCount, mkData_assoc, take4_le32, readLe32_le32 _ h]

theorem headTop_mkData (dead : List Nat) (recs : List (List Nat))
    (h : 8 + dead.length < 4294967296) :
    headTop (mkData dead recs) = 8 + dead.length := by
  rw [headTop, mkData_assoc, drop4_le32, take4_le32, readLe32_le32 _ h]

theorem mkData_drop_head (dead : List Nat) (recs : List (List Nat)) :
    (mkData dead recs).drop (8 + dead.length) = joinRecs recs := by
  rw [mkData_assoc,
    show le32 recs.length ++ (le32 (8 + dead.length) ++
      (dead ++ joinRecs recs)) =
      (le32 recs.length ++ le32 (8 + dead.length) ++ dead) ++
        joinRecs recs by simp [List.append_assoc]]
  exact List.drop_left'
    (by simp only [List.length_append, le32_length])

theorem freshPQ_eq (m fl : Nat) : freshPQ m fl = mkPQ [] [] 4 m fl 0 := by
  simp [freshPQ, mkPQ, mkData, joinRecs]

theorem putAll_ok {α : Type} (dumps : α → List Nat) (vs : List α)
    (dead : List Nat) (recs : List (List Nat)) (p m fl : Nat) (u : Int)
    (hm : m = 0 ∨ recs.length + vs.length ≤ m) :
    ∃ p', putAll dumps vs (mkPQ dead recs p m fl u) =
      (.ok (), mkPQ dead (recs ++ vs.map dumps) p' m fl
        (u + (vs.length : Int))) := by
  induction vs generalizing recs p u with
  | nil => exact ⟨p, by simp [putAll]⟩
  | cons v vs ih =>
    have hcap : ¬(m > 0 ∧ recs.length + 1 > m) := by
      rcases hm with h | h
      · omega
      · simp only [List.length_cons] at h; omega
    obtain ⟨p', hp'⟩ := ih (recs ++ [dumps v])
      ((mkData dead recs).length + 4 + (dumps v).length) (u + 1)
      (by rcases hm with h | h
          · exact Or.inl h
          · right; simp only [List.length_append, List.length_cons,
              List.length_nil] at h ⊢; omega)
    refine ⟨p', ?_⟩
    simp only [putAll]
    rw [put_ok dumps v dead recs p m fl u hcap]
    dsimp only
    rw [hp']
    simp only [List.map_cons, List.append_assoc, List.singleton_append,
      List.length_cons]
    refine congrArg₂ Prod.mk rfl ?_
    simp only [mkPQ]
    congr 1
    push_cast
    ring

theorem getN_ok {α : Type} (loads : List Nat → α) (dead : List Nat)
    (recs : List (List Nat)) (p m fl : Nat) (u : Int)
    (hsize : 8 + dead.length + (joinRecs recs).length < 4294967296) :
    ∃ dead' p', getN loads recs.length (mkPQ dead recs p m fl u) =
      (.ok (recs.map loads), mkPQ dead' [] p' m fl u) := by
  induction recs generalizing dead p with
  | nil => exact ⟨dead, p, by simp [getN]⟩
  | cons r rest ih =>
    have hlen := joinRecs_cons_length r rest
    obtain ⟨dead', p', hp'⟩ := ih (dead ++ recBytes r)
      (8 + dead.length + 4 + r.length)
      (by simp only [List.length_append, recBytes_length]; omega)
    refine ⟨dead', p', ?_⟩
    simp only [List.length_cons, getN]
    rw [get_ok loads dead r rest p m fl u (by omega) (by omega)]
    dsimp only
    rw [hp']
    simp

theorem taskDoneN_ok (k : Nat) (s : PQ) (h : s.unfinished = (k : Int)) :
    taskDoneN k s = (.ok (), { s with unfinished := 0 }) := by
  induction k generalizing s with
  | zero => simp [taskDoneN]; cases s; simpa using h
  | succ k ih =>
    simp only [taskDoneN, PQ.taskDone]
    rw [if_neg (by omega)]
    dsimp only
    rw [ih _ (by simp only [h]; push_cast; ring)]

theorem skipRecords_join (recs : List (List Nat)) (k : Nat)
    (bs : List Nat) (off : Nat)
    (hk : k ≤ recs.length)
    (hdrop : bs.drop off = joinRecs recs)
    (hoff : off + (joinRecs recs).length = bs.length)
    (hsize : bs.length < 4294967296) :
    skipRecords ⟨bs, off⟩ k =
      ⟨bs, off + (joinRecs (recs.take k)).length⟩ := by
  induction k generalizing recs off with
  | zero => simp [skipRecords, joinRecs_nil]
  | succ k ih =>
    cases recs with
    | nil => simp at hk
    | cons r rest =>
      have hlen := joinRecs_cons_length r rest
      simp only [skipRecords, QFile.read, QFile.seek, QFile.tell, hdrop]
      rw [joinRecs_cons, recBytes,
        show le32 r.length ++ r ++ joinRecs rest =
          le32 r.length ++ (r ++ joinRecs rest) by simp,
        take4_le32, readLe32_le32 _ (by omega), le32_length]
      have hdrop' : bs.drop (off + 4 + r.length) = joinRecs rest := by
        have h1 : bs.drop (off + 4 + r.length) =
            (bs.drop off).drop (4 + r.length) := by
          rw [List.drop_drop]; ring_nf
        rw [h1, hdrop, joinRecs_cons,
          show (4 + r.length : Nat) = (recBytes r).length from
            (recBytes_length r).symm]
        exact List.drop_left (recBytes r) (joinRecs rest)
      rw [ih rest (off + 4 + r.length) (by simpa using hk) hdrop'
        (by omega)]
      simp only [List.take_succ_cons, joinRecs_cons, QFile.mk.injEq,
        List.length_append, recBytes_length, true_and]
      omega

theorem deleteN_zero (s : PQ) : PQ.deleteN 0 s = s := by
  simp [PQ.deleteN]

theorem deleteN_ok (dead : List Nat) (recs : List (List Nat))
    (n p m fl : Nat) (u : Int) (hn : n ≠ 0)
    (hsize : 8 + dead.length + (joinRecs recs).length < 4294967296) :
    PQ.deleteN n (mkPQ dead recs p m fl u) =
      mkPQ (dead ++ joinRecs (recs.take n)) (recs.drop n)
        (8 + dead.length + (joinRecs (recs.take n)).length) m fl u := by
  have hjoin : joinRecs (recs.take n) ++ joinRecs (recs.drop n) =
      joinRecs recs := by
    rw [← joinRecs_append, List.take_append_drop]
  have hjlen : (joinRecs (recs.take n)).length +
      (joinRecs (recs.drop n)).length = (joinRecs recs).length := by
    rw [← List.length_append, hjoin]
  simp only [PQ.deleteN]
  rw [if_neg hn]
  simp only [mkPQ, mkData_assoc]
  rw [getQueueTop_eq _ _ _ _ (by omega)]
  simp only [QFile.seek]
  have htot : (if n > recs.length then recs.length else n) ≤ recs.length ∧
      recs.take (if n > recs.length then recs.length else n) =
        recs.take n ∧
      recs.length - (if n > recs.length then recs.length else n) =
        (recs.drop n).length := by
    refine ⟨?_, ?_, ?_⟩
    · split <;> omega
    · by_cases h : n > recs.length
      · rw [if_pos h, List.take_of_length_le (by omega),
          List.take_of_length_le (by omega)]
      · rw [if_neg h]
    · rw [List.length_drop]; split <;> omega
  rw [show (QFile.mk (le32 recs.length ++ (le32 (8 + dead.length) ++
        (dead ++ joinRecs recs))) (8 + dead.length) : QFile) =
      ⟨mkData dead recs, 8 + dead.length⟩ by
    rw [mkData_assoc]]
  rw [skipRecords_join recs _ (mkData dead recs) (8 + dead.length)
    htot.1 (mkData_drop_head dead recs)
    (by rw [mkData_length]) (by rw [mkData_length]; omega)]
  rw [htot.2.1]
  simp only [QFile.tell, mkData_assoc]
  rw [setQueueTop_eq]
  rw [updateLength_eq _ recs.length
    (le32 (8 + dead.length + (joinRecs (recs.take n)).length) ++
      (dead ++ joinRecs recs)) _ rfl]
  rw [htot.2.2]
  simp only [mkPQ, mkData_assoc, PQ.mk.injEq, QFile.mk.injEq]
  refine ⟨⟨?_, trivial⟩, trivial, trivial, trivial, trivial⟩
  rw [show (8 + (dead ++ joinRecs (recs.take n)).length : Nat) =
    8 + dead.length + (joinRecs (recs.take n)).length by
      simp only [List.length_append]; omega]
  rw [← hjoin]
  simp [List.append_assoc]

theorem map_loads_dumps {α : Type} (dumps : α → List Nat)
    (loads : List Nat → α) (vs : List α)
    (hcodec : ∀ v ∈ vs, loads (dumps v) = v) :
    (vs.map dumps).map loads = vs := by
  induction vs with
  | nil => rfl
  | cons v vs ih =>
    simp only [List.map_cons, List.cons.injEq]
    exact ⟨hcodec v (by simp), ih fun w hw => hcodec w (by simp [hw])⟩

theorem copyLoopF_irrel (a : Nat) : ∀ (b : Nat) (f : QFile) (br total : Nat),
    total - br ≤ a → total - br ≤ b →
    copyLoopF a f br total = copyLoopF b f br total := by
  induction a with
  | zero =>
    intro b f br total ha hb
    cases b with
    | zero => rfl
    | succ b =>
      simp only [copyLoopF]
      rw [if_neg (by omega)]
  | succ a ih =>
    intro b f br total ha hb
    cases b with
    | zero =>
      simp only [copyLoopF]
      rw [if_neg (by omega)]
    | succ b =>
      simp only [copyLoopF]
      by_cases h : br < total
      · rw [if_pos h, if_pos h]
        rw [ih b _ (br + 4096) total (by omega) (by omega)]
      · rw [if_neg h, if_neg h]

/-- `copyLoop` satisfies exactly the recurrence of the source's
`while bytes_read < end - start` loop: this certifies that the fuel in
`copyLoopF` is an implementation artefact, not a semantic one. -/
theorem copyLoop_unfold (f : QFile) (br total : Nat) :
    copyLoop f br total =
      if br < total then
        let rd := f.read (br + 4096)
        let r := copyLoop rd.2 (br + 4096) total
        (r.1, rd.1 ++ r.2.1, rd.1.length :: r.2.2)
      else (f, [], []) := by
  unfold copyLoop
  by_cases h : br < total
  · rw [if_pos h]
    rw [show total - br = (total - br - 1) + 1 by omega]
    rw [copyLoopF.eq_2]
    rw [if_pos h]
    dsimp only
    rw [copyLoopF_irrel (total - br - 1) (total - (br + 4096)) _ _ _
      (by omega) (le_refl _)]
  · rw [if_neg h, show total - br = 0 by omega]
    rfl

theorem copyLoop_chunks (f : QFile) (br total : Nat) :
    (copyLoop f br total).2.2 =
      chunkTrace (f.data.length - f.pos) br total := by
  generalize hfuel : total - br = fuel
  induction fuel using Nat.strong_induction_on generalizing f br with
  | _ fuel ih =>
    rw [copyLoop_unfold, chunkTrace.eq_def]
    by_cases h : br < total
    · rw [if_pos h, if_pos h]
      simp only [QFile.read]
      have hbs : ((f.data.drop f.pos).take (br + 4096)).length =
          min (br + 4096) (f.data.length - f.pos) := by
        simp [List.length_take, List.length_drop]
      rw [ih (total - (br + 4096)) (by omega) _ _ rfl]
      refine congrArg₂ List.cons hbs ?_
      refine congrArg (fun a => chunkTrace a (br + 4096) total) ?_
      simp only [hbs]
      omega
    · rw [if_neg h, if_neg h]

theorem flush_events (s : PQ)
    (h : ¬ (PQ.getQueueTop s.file).1 < s.flushLimit) :
    (PQ.flush s).2 = FsOp.writeTempHeader ::
      ((copyLoop (s.file.seek (PQ.getQueueTop s.file).1) 0
          (s.file.data.length - (PQ.getQueueTop s.file).1)).2.2.map
            FsOp.writeTempChunk ++
        [FsOp.removeOriginal, FsOp.renameTempToOriginal]) := by
  simp only [PQ.flush, QFile.seek, QFile.tell]
  rw [if_neg h]
  rfl

theorem flush_noop (s : PQ)
    (h : (PQ.getQueueTop s.file).1 < s.flushLimit) :
    PQ.flush s = (s, []) := by
  simp only [PQ.flush]
  rw [if_pos h]

theorem walk_join (bs : List Nat) (off : Nat) (recs : List (List Nat))
    (hoff : off + (joinRecs recs).length = bs.length)
    (hdrop : bs.drop off = joinRecs recs)
    (hsize : bs.length < 4294967296) :
    walk bs off recs.length = some bs.length := by
  induction recs generalizing off with
  | nil =>
    simp only [joinRecs_nil, List.length_nil, Nat.add_zero] at hoff
    simp [walk, hoff]
  | cons r rest ih =>
    have hlen := joinRecs_cons_length r rest
    simp only [List.length_cons, walk]
    rw [if_pos (by omega)]
    rw [hdrop, joinRecs_cons, recBytes,
      show le32 r.length ++ r ++ joinRecs rest =
        le32 r.length ++ (r ++ joinRecs rest) by simp,
      take4_le32, readLe32_le32 _ (by omega)]
    rw [if_pos (by omega)]
    refine ih (off + 4 + r.length) (by omega) ?_
    have : bs.drop (off + 4 + r.length) =
        (bs.drop off).drop (4 + r.length) := by
      rw [List.drop_drop]
      ring_nf
    rw [this, hdrop, joinRecs_cons]
    rw [show (4 + r.length : Nat) = (recBytes r).length from
      (recBytes_length r).symm]
    exact List.drop_left (recBytes r) (joinRecs rest)

/- ### Claim theorems -/

/-- Claim C9: every positional header access — `_update_length`,
`_get_queue_top`, `_set_queue_top` — restores the file cursor to exactly
the position it held before the call. -/
theorem header_access_restores_cursor :
    ∀ (s : PQ) (len : Nat) (f : QFile) (t : Nat),
      (PQ.updateLength s len).file.pos = s.file.pos ∧
      (PQ.getQueueTop f).2.pos = f.pos ∧
      (PQ.setQueueTop f t).pos = f.pos :=
  fun _ _ _ _ => ⟨rfl, rfl, rfl⟩

/-- Claim C6: a non-blocking or timed-out `get` or `peek` on an empty
queue raises `Empty`, and a non-blocking or timed-out `put` on a bounded
queue at capacity raises `Full`; in each case the whole queue state
(file contents, header, cached count, unfinished-task counter) is
returned exactly as it was. -/
theorem failing_calls_leave_queue_unchanged {α : Type}
    (dumps : α → List Nat) (loads : List Nat → α) (v : α) (s : PQ) :
    (s.length = 0 →
      PQ.peek loads s = (.error .empty, s) ∧
      PQ.get loads s = (.error .empty, s)) ∧
    (s.maxsize > 0 → s.length = s.maxsize →
      PQ.put dumps v s = (.error .full, s)) := by
  refine ⟨fun h => ⟨peek_empty loads s h, get_empty loads s h⟩,
    fun h1 h2 => put_full dumps v s h1 (by omega)⟩

/-- Witness for C6 at concrete states: an empty fresh queue, and a
bounded queue holding exactly `maxsize` items. -/
theorem failing_calls_leave_queue_unchanged_witness :
    ((freshPQ 0 0).length = 0 ∧
      PQ.get (fun bs => bs.headD 0) (freshPQ 0 0) =
        (.error .empty, freshPQ 0 0)) ∧
    ((mkPQ [] [[7]] 4 1 0 1).maxsize > 0 ∧
      (mkPQ [] [[7]] 4 1 0 1).length = (mkPQ [] [[7]] 4 1 0 1).maxsize ∧
      PQ.put (fun n => [n % 256]) 3 (mkPQ [] [[7]] 4 1 0 1) =
        (.error .full, mkPQ [] [[7]] 4 1 0 1)) :=
  ⟨⟨rfl, ((failing_calls_leave_queue_unchanged (fun n => [n % 256])
      (fun bs => bs.headD 0) 3 (freshPQ 0 0)).1 rfl).2⟩,
    ⟨by decide, rfl, (failing_calls_leave_queue_unchanged
      (fun n => [n % 256]) (fun bs => bs.headD 0) 3
      (mkPQ [] [[7]] 4 1 0 1)).2 (by decide) rfl⟩⟩

/-- Claim C8: `task_done` raises exactly when another decrement would
make the unfinished-task counter negative, leaving the counter unchanged
on that error, and otherwise decrements it; `join` returns exactly when
the counter is zero, so after `k` successful `put`s, `k` `task_done`
calls reach a joinable state and the `(k+1)`-th call raises. -/
theorem task_done_join_discipline {α : Type} (dumps : α → List Nat)
    (vs : List α) (m fl : Nat) (hm : m = 0 ∨ vs.length ≤ m) :
    (∀ s : PQ,
      ((PQ.taskDone s).1 = .error .taskDoneTooMany ↔ s.unfinished - 1 < 0) ∧
      ((PQ.taskDone s).1 = .error .taskDoneTooMany → (PQ.taskDone s).2 = s) ∧
      ((PQ.taskDone s).1 = .ok () →
        (PQ.taskDone s).2.unfinished = s.unfinished - 1) ∧
      (PQ.canJoin s ↔ s.unfinished = 0)) ∧
    (putAll dumps vs (freshPQ m fl)).1 = .ok () ∧
    (taskDoneN vs.length (putAll dumps vs (freshPQ m fl)).2).1 = .ok () ∧
    PQ.canJoin (taskDoneN vs.length (putAll dumps vs (freshPQ m fl)).2).2 ∧
    (PQ.taskDone
      (taskDoneN vs.length (putAll dumps vs (freshPQ m fl)).2).2).1 =
        .error .taskDoneTooMany := by
  have hgen : ∀ s : PQ,
      ((PQ.taskDone s).1 = .error .taskDoneTooMany ↔ s.unfinished - 1 < 0) ∧
      ((PQ.taskDone s).1 = .error .taskDoneTooMany → (PQ.taskDone s).2 = s) ∧
      ((PQ.taskDone s).1 = .ok () →
        (PQ.taskDone s).2.unfinished = s.unfinished - 1) ∧
      (PQ.canJoin s ↔ s.unfinished = 0) := by
    intro s
    by_cases h : s.unfinished - 1 < 0
    · refine ⟨by simp [PQ.taskDone, h], fun _ => by simp [PQ.taskDone, h],
        fun hok => ?_, Iff.rfl⟩
      simp [PQ.taskDone, h] at hok
    · refine ⟨by simp [PQ.taskDone, h], fun herr => ?_,
        fun _ => by simp [PQ.taskDone, h], Iff.rfl⟩
      simp [PQ.taskDone, h] at herr
  refine ⟨hgen, ?_⟩
  rw [freshPQ_eq]
  obtain ⟨p', hput⟩ := putAll_ok dumps vs [] [] 4 m fl 0 (by simpa using hm)
  rw [hput]
  have hu : (mkPQ [] ([] ++ vs.map dumps) p' m fl
      (0 + (vs.length : Int))).unfinished = ((vs.map dumps).length : Int) := by
    simp [mkPQ]
  rw [taskDoneN_ok _ _ (by simpa using hu)]
  refine ⟨rfl, rfl, rfl, ?_⟩
  simp [PQ.taskDone]

/-- Witness for C8: three puts on a fresh unbounded queue, three
`task_done` calls, then the failing fourth. -/
theorem task_done_join_discipline_witness :
    ((0 : Nat) = 0 ∨ ([1, 2, 3] : List Nat).length ≤ 0) ∧
    (taskDoneN 3 (putAll (fun n => [n % 256]) [1, 2, 3]
      (freshPQ 0 0)).2).1 = .ok () ∧
    (PQ.taskDone (taskDoneN 3 (putAll (fun n => [n % 256]) [1, 2, 3]
      (freshPQ 0 0)).2).2).1 = .error .taskDoneTooMany := by
  have h := task_done_join_discipline (fun n => [n % 256]) [1, 2, 3] 0 0
    (Or.inl rfl)
  exact ⟨Or.inl rfl, h.2.2.1, h.2.2.2.2⟩

/-- Claim C7: `delete(n)` discards exactly `min n count` records from the
front — clamping `n` to the count, never raising (it is a total
function), never decoding (it never applies `loads`) — while `delete(0)`
is an exact no-op and `delete` on an empty queue leaves file contents
and count unchanged. -/
theorem delete_clamps_and_noops (s : PQ) (dead : List Nat)
    (recs : List (List Nat)) (n : Nat) (hrep : QRepr s dead recs) :
    PQ.deleteN 0 s = s ∧
    (PQ.deleteN n s).length = s.length - min n recs.length ∧
    (n ≠ 0 → PQ.deleteN n s =
      mkPQ (dead ++ joinRecs (recs.take n)) (recs.drop n)
        (8 + dead.length + (joinRecs (recs.take n)).length)
        s.maxsize s.flushLimit s.unfinished) ∧
    (recs = [] → (PQ.deleteN n s).file.data = s.file.data ∧
      (PQ.deleteN n s).length = s.length) := by
  obtain ⟨hdata, hlen, hsize⟩ := hrep
  have hs := QRepr_eq_mkPQ s dead recs ⟨hdata, hlen, hsize⟩
  refine ⟨deleteN_zero s, ?_, ?_, ?_⟩
  · by_cases hn : n = 0
    · subst hn; rw [deleteN_zero s]; omega
    · rw [hs, deleteN_ok dead recs n _ _ _ _ hn hsize]
      simp only [mkPQ, List.length_drop]
      omega
  · intro hn
    rw [hs, deleteN_ok dead recs n _ _ _ _ hn hsize]
    simp [mkPQ]
  · intro hrecs
    subst hrecs
    by_cases hn : n = 0
    · subst hn; rw [deleteN_zero s]; exact ⟨rfl, rfl⟩
    · rw [hs, deleteN_ok dead [] n _ _ _ _ hn hsize]
      simp [mkPQ, joinRecs_nil]

/-- Witness for C7 at a concrete queue holding two records: `delete 3`
clamps to 2; `delete 0` is a no-op. -/
theorem delete_clamps_and_noops_witness :
    QRepr (mkPQ [] [[7], [9]] 4 0 0 0) [] [[7], [9]] ∧
    PQ.deleteN 0 (mkPQ [] [[7], [9]] 4 0 0 0) =
      mkPQ [] [[7], [9]] 4 0 0 0 ∧
    (PQ.deleteN 3 (mkPQ [] [[7], [9]] 4 0 0 0)).length = 0 := by
  have hrep : QRepr (mkPQ [] [[7], [9]] 4 0 0 0) [] [[7], [9]] :=
    QRepr_mkPQ [] [[7], [9]] 4 0 0 0 (by decide)
  have h := delete_clamps_and_noops (mkPQ [] [[7], [9]] 4 0 0 0)
    [] [[7], [9]] 3 hrep
  exact ⟨hrep, h.1, by rw [h.2.1]; rfl⟩

/-- Claim C1: on a fresh queue, `put(v1) … put(vn)` followed by `n`
`get()` calls (no interleaving) returns exactly `v1, …, vn` in order,
provided `loads` inverts `dumps` on the values (and the file stays below
the 32-bit header limit; the capacity admits all `n` puts). -/
theorem fifo_put_get_roundtrip {α : Type} (dumps : α → List Nat)
    (loads : List Nat → α) (vs : List α)
    (hcodec : ∀ v ∈ vs, loads (dumps v) = v) (m fl : Nat)
    (hm : m = 0 ∨ vs.length ≤ m)
    (hsize : 8 + (joinRecs (vs.map dumps)).length < 4294967296) :
    (putAll dumps vs (freshPQ m fl)).1 = .ok () ∧
    (getN loads vs.length (putAll dumps vs (freshPQ m fl)).2).1 =
      .ok vs := by
  rw [freshPQ_eq]
  obtain ⟨p', hput⟩ := putAll_ok dumps vs [] [] 4 m fl 0 (by simpa using hm)
  rw [hput]
  refine ⟨rfl, ?_⟩
  simp only [List.nil_append]
  obtain ⟨dead', p'', hget⟩ := getN_ok loads [] (vs.map dumps) p' m fl
    (0 + (vs.length : Int)) (by simpa using hsize)
  rw [List.length_map] at hget
  rw [hget, map_loads_dumps dumps loads vs hcodec]

/-- Witness for C1: three one-byte values through a byte codec. -/
theorem fifo_put_get_roundtrip_witness :
    (∀ v ∈ ([1, 2, 3] : List Nat), ([v % 256].headD 0) = v) ∧
    (getN (fun bs => bs.headD 0) 3
      (putAll (fun n => [n % 256]) [1, 2, 3] (freshPQ 0 0)).2).1 =
        .ok [1, 2, 3] := by
  have h := fifo_put_get_roundtrip (fun n => [n % 256])
    (fun bs => bs.headD 0) [1, 2, 3] (by decide) 0 0 (Or.inl rfl)
    (by decide)
  exact ⟨by decide, h.2⟩

/-- The header/walk well-formedness of a canonical state (spec §3
invariants 2 and 4). -/
theorem wf_mkData (dead : List Nat) (recs : List (List Nat))
    (h : 8 + dead.length + (joinRecs recs).length < 4294967296) :
    headerCount (mkData dead recs) = recs.length ∧
    walk (mkData dead recs) (headTop (mkData dead recs)) recs.length =
      some (mkData dead recs).length := by
  have hcnt : recs.length < 4294967296 := by
    have := joinRecs_length_ge recs
    omega
  refine ⟨headerCount_mkData dead recs hcnt, ?_⟩
  rw [headTop_mkData dead recs (by omega)]
  exact walk_join (mkData dead recs) (8 + dead.length) recs
    (by rw [mkData_length]) (mkData_drop_head dead recs)
    (by rw [mkData_length]; omega)

/-- Claim C2: after a successful `put` or `get`, the count in the first
4 header bytes equals the cached in-memory count, and walking exactly
`count` length-prefixed records from `head_offset` ends exactly at the
file size. -/
theorem put_get_preserve_header_invariant {α : Type}
    (dumps : α → List Nat) (loads : List Nat → α) (v : α) (s : PQ)
    (dead : List Nat) (recs : List (List Nat)) (hrep : QRepr s dead recs)
    (hgrow : 8 + dead.length +
      (joinRecs (recs ++ [dumps v])).length < 4294967296) :
    (∀ s', PQ.put dumps v s = (.ok (), s') →
      headerCount s'.file.data = s'.length ∧
      walk s'.file.data (headTop s'.file.data) s'.length =
        some s'.file.data.length) ∧
    (∀ (x : α) s', PQ.get loads s = (.ok x, s') →
      headerCount s'.file.data = s'.length ∧
      walk s'.file.data (headTop s'.file.data) s'.length =
        some s'.file.data.length) := by
  have hsize := hrep.2.2
  have hs := QRepr_eq_mkPQ s dead recs hrep
  constructor
  · intro s' hput
    by_cases hcap : s.maxsize > 0 ∧ s.length + 1 > s.maxsize
    · rw [put_full dumps v s hcap.1 hcap.2] at hput
      exact absurd (congrArg Prod.fst hput) (by simp)
    · rw [hs] at hput
      rw [put_ok dumps v dead recs _ _ _ _
        (by rw [hs] at hcap; simpa [mkPQ] using hcap)] at hput
      have hs' : s' = mkPQ dead (recs ++ [dumps v])
          ((mkData dead recs).length + 4 + (dumps v).length)
          s.maxsize s.flushLimit (s.unfinished + 1) := by
        have := congrArg Prod.snd hput
        simpa using this.symm
      rw [hs']
      exact wf_mkData dead (recs ++ [dumps v]) hgrow
  · intro x s' hget
    cases recs with
    | nil =>
      rw [get_empty loads s (by rw [hs]; rfl)] at hget
      exact absurd (congrArg Prod.fst hget) (by simp)
    | cons r rest =>
      have hlen := joinRecs_cons_length r rest
      rw [hs, get_ok loads dead r rest _ _ _ _ (by omega) (by omega)]
        at hget
      have hs' : s' = mkPQ (dead ++ recBytes r) rest
          (8 + dead.length + 4 + r.length)
          s.maxsize s.flushLimit s.unfinished := by
        have := congrArg Prod.snd hget
        simpa using this.symm
      rw [hs']
      refine wf_mkData (dead ++ recBytes r) rest ?_
      simp only [List.length_append, recBytes_length]
      omega

/-- Witness for C2: a put and a get on a concrete one-record queue. -/
theorem put_get_preserve_header_invariant_witness :
    QRepr (mkPQ [] [[7]] 4 0 0 0) [] [[7]] ∧
    (headerCount (PQ.put (fun n => [n % 256]) 3
        (mkPQ [] [[7]] 4 0 0 0)).2.file.data =
      (PQ.put (fun n => [n % 256]) 3 (mkPQ [] [[7]] 4 0 0 0)).2.length) ∧
    (headerCount (PQ.get (fun bs => bs.headD 0)
        (mkPQ [] [[7]] 4 0 0 0)).2.file.data =
      (PQ.get (fun bs => bs.headD 0)
        (mkPQ [] [[7]] 4 0 0 0)).2.length) := by
  have hrep : QRepr (mkPQ [] [[7]] 4 0 0 0) [] [[7]] :=
    QRepr_mkPQ [] [[7]] 4 0 0 0 (by decide)
  have h := put_get_preserve_header_invariant (fun n => [n % 256])
    (fun bs => bs.headD 0) 3 (mkPQ [] [[7]] 4 0 0 0) [] [[7]] hrep
    (by decide)
  refine ⟨hrep, (h.1 _ rfl).1, (h.2 _ _ rfl).1⟩

/-- Claim C5: on a non-empty queue, `peek` returns the decoded first
live record, changes neither the file contents nor the count (on disk or
in memory) nor the unfinished-task counter, and is idempotent:
`peek(); peek(); get()` all return the same value. -/
theorem peek_pure_and_idempotent {α : Type} (loads : List Nat → α)
    (s : PQ) (dead r : List Nat) (rest : List (List Nat))
    (hrep : QRepr s dead (r :: rest)) :
    (PQ.peek loads s).1 = .ok (loads r) ∧
    (PQ.peek loads s).2.file.data = s.file.data ∧
    (PQ.peek loads s).2.length = s.length ∧
    (PQ.peek loads s).2.unfinished = s.unfinished ∧
    (PQ.peek loads (PQ.peek loads s).2).1 = .ok (loads r) ∧
    (PQ.get loads
      (PQ.peek loads (PQ.peek loads s).2).2).1 = .ok (loads r) := by
  have hsize := hrep.2.2
  have hlen := joinRecs_cons_length r rest
  have hs := QRepr_eq_mkPQ s dead (r :: rest) hrep
  rw [hs]
  rw [peek_ok loads dead r rest _ _ _ _ (by omega) (by omega)]
  dsimp only
  rw [peek_ok loads dead r rest _ _ _ _ (by omega) (by omega)]
  dsimp only
  rw [get_ok loads dead r rest _ _ _ _ (by omega) (by omega)]
  exact ⟨rfl, rfl, rfl, rfl, rfl, rfl⟩

/-- Witness for C5 at a concrete one-record queue. -/
theorem peek_pure_and_idempotent_witness :
    QRepr (mkPQ [] [[7]] 4 0 0 0) [] [[7]] ∧
    (PQ.peek (fun bs => bs.headD 0) (mkPQ [] [[7]] 4 0 0 0)).1 =
      .ok 7 ∧
    (PQ.get (fun bs => bs.headD 0)
      (PQ.peek (fun bs => bs.headD 0)
        (PQ.peek (fun bs => bs.headD 0)
          (mkPQ [] [[7]] 4 0 0 0)).2).2).1 = .ok 7 := by
  have hrep : QRepr (mkPQ [] [[7]] 4 0 0 0) [] [[7]] :=
    QRepr_mkPQ [] [[7]] 4 0 0 0 (by decide)
  have h := peek_pure_and_idempotent (fun bs => bs.headD 0)
    (mkPQ [] [[7]] 4 0 0 0) [] [7] [] hrep
  exact ⟨hrep, h.1, h.2.2.2.2.2⟩

/-- Claim C10: on a non-empty queue, `get` returns exactly the value
`peek` would return on the same state, advances `head_offset` to the
offset just past that record, decrements the count by one, and leaves
the record bytes physically present (all non-header bytes unchanged,
with the framed record still at the old head offset). -/
theorem get_refines_peek_then_advance {α : Type} (loads : List Nat → α)
    (s : PQ) (dead r : List Nat) (rest : List (List Nat))
    (hrep : QRepr s dead (r :: rest)) :
    (PQ.get loads s).1 = (PQ.peek loads s).1 ∧
    headTop (PQ.get loads s).2.file.data =
      headTop s.file.data + (4 + r.length) ∧
    (PQ.get loads s).2.length = s.length - 1 ∧
    (PQ.get loads s).2.file.data.drop 8 = s.file.data.drop 8 ∧
    ((PQ.get loads s).2.file.data.drop
      (headTop s.file.data)).take (4 + r.length) = recBytes r := by
  have hsize := hrep.2.2
  have hlen := joinRecs_cons_length r rest
  have hs := QRepr_eq_mkPQ s dead (r :: rest) hrep
  rw [hs]
  rw [peek_ok loads dead r rest _ _ _ _ (by omega) (by omega)]
  rw [get_ok loads dead r rest _ _ _ _ (by omega) (by omega)]
  have hdrop : (mkData (dead ++ recBytes r) rest).drop (8 + dead.length) =
      recBytes r ++ joinRecs rest := by
    rw [mkData_assoc,
      show le32 rest.length ++ (le32 (8 + (dead ++ recBytes r).length) ++
        ((dead ++ recBytes r) ++ joinRecs rest)) =
        (le32 rest.length ++ le32 (8 + (dead ++ recBytes r).length) ++
          dead) ++ (recBytes r ++ joinRecs rest) by
        simp [List.append_assoc]]
    exact List.drop_left' (by simp only [List.length_append, le32_length])
  refine ⟨rfl, ?_, ?_, ?_, ?_⟩
  · rw [mkPQ, mkPQ]
    simp only
    rw [headTop_mkData dead (r :: rest) (by omega),
      headTop_mkData (dead ++ recBytes r) rest
        (by simp only [List.length_append, recBytes_length]; omega)]
    simp only [List.length_append, recBytes_length]
    omega
  · simp [mkPQ]
  · rw [mkPQ, mkPQ]
    simp only
    rw [show (8 : Nat) = ((le32 (r :: rest).length ++
        le32 (8 + dead.length)).length : Nat) by
      simp only [List.length_append, le32_length],
      mkData_assoc, mkData_assoc]
    rw [show le32 (r :: rest).length ++ (le32 (8 + dead.length) ++
        (dead ++ joinRecs (r :: rest))) =
        (le32 (r :: rest).length ++ le32 (8 + dead.length)) ++
          (dead ++ joinRecs (r :: rest)) by simp [List.append_assoc]]
    rw [List.drop_left]
    rw [show (le32 (r :: rest).length ++
        le32 (8 + dead.length)).length =
        ((le32 rest.length ++
          le32 (8 + (dead ++ recBytes r).length)).length : Nat) by
      simp only [List.length_append, le32_length]]
    rw [show le32 rest.length ++ (le32 (8 + (dead ++ recBytes r).length) ++
        ((dead ++ recBytes r) ++ joinRecs rest)) =
        (le32 rest.length ++ le32 (8 + (dead ++ recBytes r).length)) ++
          ((dead ++ recBytes r) ++ joinRecs rest) by
      simp [List.append_assoc]]
    rw [List.drop_left]
    simp [joinRecs_cons, List.append_assoc]
  · rw [mkPQ, mkPQ]
    simp only
    rw [headTop_mkData dead (r :: rest) (by omega), hdrop]
    exact List.take_left' (recBytes_length r)

/-- Witness for C10 at a concrete one-record queue. -/
theorem get_refines_peek_then_advance_witness :
    QRepr (mkPQ [] [[7]] 4 0 0 0) [] [[7]] ∧
    (PQ.get (fun bs => bs.headD 0) (mkPQ [] [[7]] 4 0 0 0)).1 =
      (PQ.peek (fun bs => bs.headD 0) (mkPQ [] [[7]] 4 0 0 0)).1 ∧
    (PQ.get (fun bs => bs.headD 0)
      (mkPQ [] [[7]] 4 0 0 0)).2.length = 0 := by
  have hrep : QRepr (mkPQ [] [[7]] 4 0 0 0) [] [[7]] :=
    QRepr_mkPQ [] [[7]] 4 0 0 0 (by decide)
  have h := get_refines_peek_then_advance (fun bs => bs.headD 0)
    (mkPQ [] [[7]] 4 0 0 0) [] [7] [] hrep
  exact ⟨hrep, h.1, by rw [h.2.2.1]; rfl⟩

/-- Claim C3 (divergence evidence): on a queue whose live region holds
12288 bytes (three 4092-byte records) with `flush_limit` 8, the copy
loop of `flush` reads chunks of 4096, 8192 and 0 bytes — the counter
`bytes_read` grows by `chunk_size` per iteration but is then passed to
`read` whole — whereas the loop the spec prescribes reads
`min(4096, remaining)` per chunk: 4096, 4096, 4096. -/
theorem flush_chunk_loop_divergence :
    (PQ.flush (mkPQ [] [List.replicate 4092 0, List.replicate 4092 0,
        List.replicate 4092 0] 4 0 8 0)).2 =
      FsOp.writeTempHeader ::
        (([4096, 8192, 0] : List Nat).map FsOp.writeTempChunk ++
          [FsOp.removeOriginal, FsOp.renameTempToOriginal]) ∧
    specChunks 12288 = [4096, 4096, 4096] ∧
    ([4096, 8192, 0] : List Nat) ≠ [4096, 4096, 4096] := by
  have hc3 : chunkTrace 0 12288 12288 = [] := by
    rw [chunkTrace.eq_def]; norm_num
  have hc2 : chunkTrace 0 8192 12288 = [0] := by
    rw [chunkTrace.eq_def]; norm_num [Nat.min_def, hc3]
  have hc1 : chunkTrace 8192 4096 12288 = [8192, 0] := by
    rw [chunkTrace.eq_def]; norm_num [Nat.min_def, hc2]
  have hc0 : chunkTrace 12288 0 12288 = [4096, 8192, 0] := by
    rw [chunkTrace.eq_def]; norm_num [Nat.min_def, hc1]
  have hs3 : specChunks 0 = [] := by
    rw [specChunks.eq_def]; norm_num
  have hs2 : specChunks 4096 = [4096] := by
    rw [specChunks.eq_def]; norm_num [Nat.min_def, hs3]
  have hs1 : specChunks 8192 = [4096, 4096] := by
    rw [specChunks.eq_def]; norm_num [Nat.min_def, hs2]
  have hs0 : specChunks 12288 = [4096, 4096, 4096] := by
    rw [specChunks.eq_def]; norm_num [Nat.min_def, hs1]
  have htop : (PQ.getQueueTop (mkPQ [] [List.replicate 4092 0,
      List.replicate 4092 0, List.replicate 4092 0] 4 0 8 0).file).1 = 8 := by
    simp only [mkPQ, mkData_assoc]
    rw [getQueueTop_eq _ _ _ _ (by norm_num)]
    rfl
  have hlen : (mkPQ [] [List.replicate 4092 0, List.replicate 4092 0,
      List.replicate 4092 0] 4 0 8 0).file.data.length = 12296 := by
    simp only [mkPQ, mkData_length, joinRecs_cons_length, joinRecs_nil]
    norm_num
  refine ⟨?_, hs0, by decide⟩
  rw [flush_events _ (by rw [htop]; show ¬ (8 : Nat) < 8; omega)]
  rw [copyLoop_chunks]
  simp only [QFile.seek]
  rw [htop, hlen]
  norm_num
  rw [hc0]
  rfl

/-- Claim C4 (counterexample): `flush` on a concrete queue that passes
the threshold emits `remove(original)` strictly before
`rename(temp, original)` — the replacement is not a single atomic
rename, and the original file is removed before the rename. -/
theorem flush_removes_original_before_rename :
    (PQ.flush (mkPQ [] [[5]] 4 0 8 0)).2 =
      [FsOp.writeTempHeader, FsOp.writeTempChunk 5,
        FsOp.removeOriginal, FsOp.renameTempToOriginal] ∧
    FsOp.removeOriginal ∈ (PQ.flush (mkPQ [] [[5]] 4 0 8 0)).2 ∧
    (PQ.flush (mkPQ [] [[5]] 4 0 8 0)).2.indexOf FsOp.removeOriginal <
      (PQ.flush (mkPQ [] [[5]] 4 0 8 0)).2.indexOf
        FsOp.renameTempToOriginal := by
  refine ⟨by decide, by decide, by decide⟩

/-- Claim C4 (amended): whenever the threshold check passes, `flush`'s
filesystem actions are: writes that touch only the temporary file, then
`remove(original)`, then `rename(temp, original)` — so the original is
intact up to the remove, and between remove and rename the data lives
only in the temp file. -/
theorem flush_remove_then_rename (s : PQ)
    (hbig : ¬ (PQ.getQueueTop s.file).1 < s.flushLimit) :
    ∃ chunks : List Nat,
      (PQ.flush s).2 =
        (FsOp.writeTempHeader :: chunks.map FsOp.writeTempChunk) ++
          [FsOp.removeOriginal, FsOp.renameTempToOriginal] ∧
      ∀ e ∈ FsOp.writeTempHeader :: chunks.map FsOp.writeTempChunk,
        e ≠ FsOp.removeOriginal ∧ e ≠ FsOp.renameTempToOriginal := by
  refine ⟨(copyLoop (s.file.seek (PQ.getQueueTop s.file).1) 0
    (s.file.data.length - (PQ.getQueueTop s.file).1)).2.2, ?_, ?_⟩
  · rw [flush_events s hbig]
    simp
  · intro e he
    rcases List.mem_cons.mp he with h | h
    · subst h
      exact ⟨fun hh => FsOp.noConfusion hh, fun hh => FsOp.noConfusion hh⟩
    · obtain ⟨n, _, rfl⟩ := List.mem_map.mp h
      exact ⟨fun hh => FsOp.noConfusion hh, fun hh => FsOp.noConfusion hh⟩

/-- Witness for the amended C4 at a concrete queue past the threshold. -/
theorem flush_remove_then_rename_witness :
    (¬ (PQ.getQueueTop (mkPQ [] [[5], [6]] 4 0 8 0).file).1 <
        (mkPQ [] [[5], [6]] 4 0 8 0).flushLimit) ∧
    (∃ chunks : List Nat,
      (PQ.flush (mkPQ [] [[5], [6]] 4 0 8 0)).2 =
        (FsOp.writeTempHeader :: chunks.map FsOp.writeTempChunk) ++
          [FsOp.removeOriginal, FsOp.renameTempToOriginal] ∧
      ∀ e ∈ FsOp.writeTempHeader :: chunks.map FsOp.writeTempChunk,
        e ≠ FsOp.removeOriginal ∧ e ≠ FsOp.renameTempToOriginal) :=
  ⟨by decide, flush_remove_then_rename _ (by decide)⟩
